import Mathlib

/-!
# Verification of the tail boundary resolution engine (`tailr`)

A shallow embedding, in Lean 4, of the `tailr` utility of this repository
(`src/tailr/src/lib.rs`): the position-specification parser
(`parse_position`), the per-file boundary location logic (the byte seeks and
the two single-byte line-scanning loops inside `run`), and the per-file
error-propagation structure of `run`.

Modelling conventions:
  * A file's contents is a `List Nat` of its bytes; the newline byte `b'\n'`
    is `10`.
  * The `BufReader` cursor is a natural-number position into that list.
    `seek_relative(k)` succeeds exactly when the target position is
    non-negative (seeking past end-of-file succeeds, as it does for a real
    file); on failure the cursor is unchanged.  `read_exact` of one byte at
    position `p` succeeds exactly when `p < length`, and advances the cursor.
    `read_to_end` from position `p` returns `content.drop p`.
  * CLI strings are `List Char`.  `i64` values are `Int` with the explicit
    range checks that `str::parse::<i64>` performs.
  * The fallible parts of `run` are mirrored with `Except`: `File::open`
    failure, failure of the initial `seek(SeekFrom::End(0))`, and failure of
    the final `read_to_end` are modelled as flags on the input file, since
    they are environment events not determined by the file's bytes.  Standard
    output/error printing is abstracted away: the emitted bytes of each file
    are returned, a file whose open failed is recorded as `none` (its error
    is printed and processing continues, per the source).
-/

namespace Tailr

/-- The byte value of `b'\n'`. -/
def newline : Nat := 10

/-! ## The position-specification parser (`parse_position`, lib.rs lines 50-61) -/

/-- Horner evaluation of a decimal digit string, as `str::parse` performs it
on the digit characters (`'0'` has code 48). -/
def digitsToNat (d : List Char) : Nat :=
  d.foldl (fun acc ch => acc * 10 + (ch.toNat - 48)) 0

/-- Rust's `str::parse::<i64>` on a character list: an optional single leading
`'+'` or `'-'`, then one or more ASCII digits, with the value required to fit
in the `i64` range (`-(2^63) ..= 2^63 - 1`). -/
def parseI64 (s : List Char) : Option Int :=
  let digits := if s.head? = some '+' ∨ s.head? = some '-' then s.drop 1 else s
  if digits = [] then none
  else if digits.all Char.isDigit then
    if s.head? = some '-' then
      if digitsToNat digits ≤ 2 ^ 63 then some (-(digitsToNat digits : Int)) else none
    else
      if digitsToNat digits ≤ 2 ^ 63 - 1 then some ((digitsToNat digits : Int)) else none
  else none

/-- `parse_position` (lib.rs lines 50-61): strip one leading `"+"` (recording
`from_start`), strip *all* leading `'-'` characters
(`trim_start_matches('-')`), then parse the remainder as an `i64`; the parsed
magnitude is negated when `from_start` is false. -/
def parse_position (text : List Char) : Option (Int × Bool) :=
  if text.head? = some '+' then
    (parseI64 ((text.drop 1).dropWhile (fun ch => decide (ch = '-')))).map
      (fun n => (n, true))
  else
    (parseI64 (text.dropWhile (fun ch => decide (ch = '-')))).map
      (fun n => (-n, false))

/-- The `--bytes` / `--lines` selection of `run` (lib.rs lines 65-71): `bytes`
wins, then `lines`, then the (unreachable, since clap supplies the `"10"`
default for `lines`) empty string. -/
def selectPosition (bytes lines : Option (List Char)) : Bool × List Char :=
  match bytes with
  | some s => (true, s)
  | none =>
    match lines with
    | some s => (false, s)
    | none => (false, [])

/-- The `default_value = "10"` that clap supplies for `--lines`. -/
def clapLinesDefault : List Char := ['1', '0']

/-- The normalization on lib.rs lines 77-79: `if position > 0 && from_start
{ position -= 1 }`. -/
def adjustPosition (p : Int) (from_start : Bool) : Int :=
  if 0 < p ∧ from_start = true then p - 1 else p

/-- `parse_position` followed by the `+K → K-1` normalization: the value of
`position` that the scanning code of `run` actually receives. -/
def normalizePosition (text : List Char) : Option (Int × Bool) :=
  (parse_position text).map (fun pf => (adjustPosition pf.1 pf.2, pf.2))

/-! ## The boundary locator (lib.rs lines 99-143) -/

/-- One pass of the backward line scan of `run` (lib.rs lines 124-143),
entered with the cursor at `pos` (initially the file size, after
`seek(SeekFrom::End(0))`) having counted `linesNum` newlines so far.  Each
iteration: check `lines_num <= max_lines`; `seek_relative(-1)` (fails exactly
at position 0, leaving the cursor in place); `read_exact` one byte (fails
exactly when reading at or past end-of-file, which cannot happen from a
start position of at most the file size but is modelled faithfully); count a
newline; `seek_relative(-1)` back unless this newline made `lines_num`
exceed `max_lines`. -/
def backwardScan (cs : List Nat) (maxLines : Nat) : Nat → Nat → Nat
  | _, 0 => 0
  | linesNum, p + 1 =>
    if linesNum ≤ maxLines then
      match cs[p]? with
      | none => p
      | some b =>
        if b = newline then
          if maxLines < linesNum + 1 then p + 1
          else backwardScan cs maxLines (linesNum + 1) p
        else backwardScan cs maxLines linesNum p
    else p + 1

/-- One pass of the forward line scan of `run` (lib.rs lines 107-123),
entered at cursor `pos` having counted `linesNum` newlines.  Each iteration:
check `lines_num < max_lines`; `seek_relative(1)` (always succeeds);
`read_exact` one byte — the byte at index `pos + 1` — failing exactly at or
past end-of-file (the cursor then rests at `pos + 1`); on a newline count it
(cursor `pos + 2`), otherwise `seek_relative(-1)` back to `pos + 1`.  The
loop is driven by a fuel argument for structural recursion: each iteration
moves the cursor strictly forward and the loop stops as soon as the read
position passes the end, so `length + 1` fuel (supplied by `forwardScan`) is
never exhausted from the initial state. -/
def forwardScanGo (cs : List Nat) (maxLines : Nat) : Nat → Nat → Nat → Nat
  | 0, _, pos => pos
  | fuel + 1, linesNum, pos =>
    if linesNum < maxLines then
      match cs[pos + 1]? with
      | none => pos + 1
      | some b =>
        if b = newline then forwardScanGo cs maxLines fuel (linesNum + 1) (pos + 2)
        else forwardScanGo cs maxLines fuel linesNum (pos + 1)
    else pos

/-- The forward line scan from the start of the file. -/
def forwardScan (cs : List Nat) (maxLines : Nat) : Nat :=
  forwardScanGo cs maxLines (cs.length + 1) 0 0

/-- The cursor position at which `run` begins emitting, for one file with
contents `cs` (lib.rs lines 99-143).  When `from_start` is false the cursor
first moves to the end of the file.  In byte mode, `seek_relative(position)`
from that base succeeds unless the target is negative, in which case the code
falls back to `seek(SeekFrom::Start(0))`; `Int.toNat` of the non-negative
target is the resulting cursor (a position past end-of-file is legal and
drains to nothing).  In line mode the two scanning loops run with
`max_lines = position.abs()`. -/
def fileOffset (is_bytes from_start : Bool) (position : Int) (cs : List Nat) : Nat :=
  if is_bytes then
    let base : Int := if from_start then 0 else (cs.length : Int)
    if 0 ≤ base + position then (base + position).toNat else 0
  else if from_start then forwardScan cs position.natAbs
  else backwardScan cs position.natAbs 0 cs.length

/-! ## The emitter loop of `run` (lib.rs lines 63-154) -/

/-- The error enum of lib.rs (lines 35-46).  `ioPath` is only ever printed
(for open failures), `io` is the variant that the `?` operators on the
end-seek and the drain return, `invalidPosition` carries the offending raw
count text and whether it was a byte count. -/
inductive CliError where
  | io : CliError
  | ioPath : CliError
  | invalidPosition : List Char → Bool → CliError
deriving DecidableEq

/-- One input file as `run` sees it: whether `File::open` succeeds, the bytes,
and whether the process-external I/O failures modelled in this embedding —
the initial `seek(SeekFrom::End(0))` and the final `read_to_end` — occur for
this file. -/
structure FileInput where
  openOk : Bool
  content : List Nat
  seekEndErr : Bool
  drainErr : Bool
deriving DecidableEq

/-- The per-file loop of `run` (lib.rs lines 81-151).  An open failure prints
the error and continues with the next file (`continue`); a failure of the
end-seek (only performed when `from_start` is false) or of the drain
propagates through `?` and aborts the whole run.  The emitted bytes of each
successfully processed file are `content.drop offset`; a file whose open
failed contributes `none`. -/
def processFiles (is_bytes : Bool) (position : Int) (from_start : Bool) :
    List FileInput → Except CliError (List (Option (List Nat)))
  | [] => Except.ok []
  | f :: rest =>
    if f.openOk = false then
      (processFiles is_bytes position from_start rest).map (fun r => none :: r)
    else if (!from_start) && f.seekEndErr then Except.error CliError.io
    else if f.drainErr then Except.error CliError.io
    else
      (processFiles is_bytes position from_start rest).map
        (fun r =>
          some (f.content.drop (fileOffset is_bytes from_start position f.content)) :: r)

/-- `run` (lib.rs lines 63-154): select the count string, parse it (a parse
failure aborts before any file is opened), normalize `+K`, then process the
files in order. -/
def run (bytes lines : Option (List Char)) (files : List FileInput) :
    Except CliError (List (Option (List Nat))) :=
  let sel := selectPosition bytes lines
  match parse_position sel.2 with
  | none => Except.error (CliError.invalidPosition sel.2 sel.1)
  | some (p, from_start) =>
    processFiles sel.1 (adjustPosition p from_start) from_start files

/-! ## Spec-side measures and reference definitions -/

/-- The number of lines of a file in the sense of the specification: each
newline terminates a line, and a non-empty final segment without a trailing
newline counts as one more (unterminated) line.  A file ending in `\n` does
not have an extra empty line. -/
def countLines (cs : List Nat) : Nat :=
  cs.count newline + (if cs ≠ [] ∧ cs.getLast? ≠ some newline then 1 else 0)

/-- Reference definition following the specification's words for the
`Lines/FromStart(index)` case: scan forward from the beginning counting
newlines, stop as soon as `index` newlines have been consumed or end-of-file
is reached; the offset is the position immediately after the `index`-th
newline, `0` when `index = 0`, and the file size when fewer than `index`
newlines exist. -/
def specLineStartOffset : List Nat → Nat → Nat
  | _, 0 => 0
  | [], _ + 1 => 0
  | b :: rest, i + 1 =>
    if b = newline then 1 + specLineStartOffset rest i
    else 1 + specLineStartOffset rest (i + 1)

/-- Reference definition following the specification's words for the count
grammar: an optional single leading sign (`'+'` or `'-'`), followed by a
non-empty unsigned decimal integer. -/
def specCountGrammar (s : List Char) : Bool :=
  match s with
  | [] => false
  | a :: rest =>
    if a = '+' ∨ a = '-' then (!rest.isEmpty) && rest.all Char.isDigit
    else (a :: rest).all Char.isDigit

/-- The digit portion of a count string under the specification's grammar:
the string with its single optional leading sign removed. -/
def digitPortion (s : List Char) : List Char :=
  match s with
  | [] => []
  | a :: rest => if a = '+' ∨ a = '-' then rest else a :: rest

/-- A file in which no two consecutive bytes are both newlines (no empty
line in the middle or at the end). -/
def noAdjacentNewlines : List Nat → Bool
  | [] => true
  | [_] => true
  | a :: b :: rest => (!(a = newline && b = newline)) && noAdjacentNewlines (b :: rest)

/-! ## Helper lemmas on lists -/

/-- A successful one-byte read at position `p` splits the remaining file. -/
lemma drop_cons_of_read {cs : List Nat} {p b : Nat} (h : cs[p]? = some b) :
    cs.drop p = b :: cs.drop (p + 1) := by
  obtain ⟨hlt, hb⟩ := List.getElem?_eq_some.1 h
  rw [List.drop_eq_getElem_cons hlt, hb]

/-- Newline count of the tail from `p`, split at the byte read there. -/
lemma count_drop_of_read {cs : List Nat} {p b : Nat} (h : cs[p]? = some b) :
    (cs.drop p).count newline =
      (cs.drop (p + 1)).count newline + (if b = newline then 1 else 0) := by
  rw [drop_cons_of_read h]
  by_cases hb : b = newline
  · subst hb; simp [List.count_cons_self]
  · simp [List.count_cons_of_ne (fun hc => hb hc.symm), hb]

/-- A suffix never holds more newlines than the file. -/
lemma count_drop_le (cs : List Nat) (p : Nat) :
    (cs.drop p).count newline ≤ cs.count newline :=
  (List.drop_sublist p cs).count_le newline

/-- A prefix never holds more newlines than the file. -/
lemma count_take_le (cs : List Nat) (p : Nat) :
    (cs.take p).count newline ≤ cs.count newline :=
  (List.take_sublist p cs).count_le newline

/-- A non-empty suffix ends where the file ends. -/
lemma getLast?_drop {cs : List Nat} {k : Nat} (h : cs.drop k ≠ []) :
    (cs.drop k).getLast? = cs.getLast? := by
  conv_rhs => rw [← List.take_append_drop k cs]
  rw [List.getLast?_append_of_ne_nil _ h]

/-- For an empty or newline-terminated file the line count is the newline
count: the final unterminated segment is absent. -/
lemma countLines_eq_count {cs : List Nat} (h : cs = [] ∨ cs.getLast? = some newline) :
    countLines cs = cs.count newline := by
  rcases h with rfl | h
  · simp [countLines]
  · simp [countLines, h]

/-- Files whose line count equals their newline count are exactly the empty
or newline-terminated ones. -/
lemma countLines_eq_count_iff {cs : List Nat} :
    countLines cs = cs.count newline ↔ cs = [] ∨ cs.getLast? = some newline := by
  constructor
  · intro h
    by_contra hcon
    push_neg at hcon
    simp [countLines, hcon.1, hcon.2] at h
  · exact countLines_eq_count

/-- Every suffix of an empty or newline-terminated file is empty or
newline-terminated. -/
lemma terminated_drop {cs : List Nat} (h : cs = [] ∨ cs.getLast? = some newline) (k : Nat) :
    cs.drop k = [] ∨ (cs.drop k).getLast? = some newline := by
  by_cases hk : cs.drop k = []
  · exact Or.inl hk
  · rcases h with rfl | h
    · simp at hk
    · exact Or.inr ((getLast?_drop hk).trans h)

/-- A newline-terminated non-empty suffix holds at least one newline. -/
lemma count_pos_of_terminated {l : List Nat}
    (hlast : l.getLast? = some newline) : 0 < l.count newline :=
  List.count_pos_iff.mpr (List.mem_of_mem_getLast? hlast)

/-! ## Behaviour of the backward line scan -/

/-- Invariant proof for the backward scan of `run`: entered at position `pos`
having already counted the newlines of `cs.drop pos`, the scan stops at an
offset whose suffix holds exactly `min maxL (cs.count newline)` newlines: it
stops just after the `(maxL + 1)`-th newline from the end when the file has
that many, and at offset 0 otherwise. -/
lemma backwardScan_count (cs : List Nat) (maxL : Nat) :
    ∀ pos linesNum, pos ≤ cs.length → linesNum = (cs.drop pos).count newline →
      linesNum ≤ maxL →
      (cs.drop (backwardScan cs maxL linesNum pos)).count newline =
        min maxL (cs.count newline) := by
  intro pos
  induction pos with
  | zero =>
    intro ln hpos hln hle
    simp only [backwardScan, List.drop_zero]
    simp only [List.drop_zero] at hln
    omega
  | succ p ih =>
    intro ln hpos hln hle
    have hplt : p < cs.length := hpos
    have hb : cs[p]? = some cs[p] := List.getElem?_eq_getElem hplt
    have hsplit := count_drop_of_read hb
    by_cases hnl : cs[p] = newline
    · by_cases hterm : maxL < ln + 1
      · have hret : backwardScan cs maxL ln (p + 1) = p + 1 := by
          simp [backwardScan, hle, hb, hnl, hterm]
        rw [hret]
        have h2 : ln + 1 ≤ cs.count newline := by
          have hd := count_drop_le cs p
          rw [hsplit, if_pos hnl] at hd
          omega
        omega
      · have hrec : backwardScan cs maxL ln (p + 1) = backwardScan cs maxL (ln + 1) p := by
          simp [backwardScan, hle, hb, hnl, hterm]
        rw [hrec]
        exact ih (ln + 1) (le_of_lt hplt)
          (by rw [hsplit, if_pos hnl]; omega) (by omega)
    · have hrec : backwardScan cs maxL ln (p + 1) = backwardScan cs maxL ln p := by
        simp [backwardScan, hle, hb, hnl]
      rw [hrec]
      exact ih ln (le_of_lt hplt) (by rw [hsplit, if_neg hnl]; omega) hle

/-- When the whole file holds at most `maxL` newlines, the backward scan
drains back to offset 0 (the whole file is emitted). -/
lemma backwardScan_all (cs : List Nat) (maxL : Nat) :
    ∀ pos linesNum, pos ≤ cs.length → linesNum = (cs.drop pos).count newline →
      cs.count newline ≤ maxL → backwardScan cs maxL linesNum pos = 0 := by
  intro pos
  induction pos with
  | zero => intro ln _ _ _; simp [backwardScan]
  | succ p ih =>
    intro ln hpos hln hmax
    have hplt : p < cs.length := hpos
    have hb : cs[p]? = some cs[p] := List.getElem?_eq_getElem hplt
    have hsplit := count_drop_of_read hb
    have hle : ln ≤ maxL := by
      have hd := count_drop_le cs (p + 1)
      omega
    by_cases hnl : cs[p] = newline
    · have hterm : ¬ maxL < ln + 1 := by
        have hd := count_drop_le cs p
        rw [hsplit, if_pos hnl] at hd
        omega
      have hrec : backwardScan cs maxL ln (p + 1) = backwardScan cs maxL (ln + 1) p := by
        simp [backwardScan, hle, hb, hnl, hterm]
      rw [hrec]
      exact ih (ln + 1) (le_of_lt hplt) (by rw [hsplit, if_pos hnl]; omega) hmax
    · have hrec : backwardScan cs maxL ln (p + 1) = backwardScan cs maxL ln p := by
        simp [backwardScan, hle, hb, hnl]
      rw [hrec]
      exact ih ln (le_of_lt hplt) (by rw [hsplit, if_neg hnl]; omega) hmax

/-! ## Behaviour of the forward line scan -/

/-- The reference forward offset never passes the end of the file. -/
lemma specLineStartOffset_le (cs : List Nat) :
    ∀ k, specLineStartOffset cs k ≤ cs.length := by
  induction cs with
  | nil => intro k; cases k <;> simp [specLineStartOffset]
  | cons b rest ih =>
    intro k
    cases k with
    | zero => simp [specLineStartOffset]
    | succ i =>
      by_cases hb : b = newline
      · have := ih i
        simp only [specLineStartOffset, if_pos hb, List.length_cons]
        omega
      · have := ih (i + 1)
        simp only [specLineStartOffset, if_neg hb, List.length_cons]
        omega

/-- In a file with no adjacent newlines, the byte after a newline is not a
newline. -/
lemma noAdjacent_not_next (cs : List Nat) (h : noAdjacentNewlines cs = true) :
    ∀ i, cs[i]? = some newline → cs[i + 1]? ≠ some newline := by
  induction cs with
  | nil => intro i hi; simp at hi
  | cons a rest ih =>
    intro i hi hj
    cases rest with
    | nil =>
      rcases i with _ | n
      · simp at hj
      · simp at hi
    | cons b rest' =>
      have hsplit : (decide (a = newline) && decide (b = newline)) = false ∧
          noAdjacentNewlines (b :: rest') = true := by
        have h2 : ((!(decide (a = newline) && decide (b = newline))) &&
            noAdjacentNewlines (b :: rest')) = true := h
        rw [Bool.and_eq_true, Bool.not_eq_true'] at h2
        exact h2
      rcases i with _ | n
      · simp only [List.getElem?_cons_zero, Option.some.injEq] at hi
        simp only [List.getElem?_cons_succ, List.getElem?_cons_zero,
          Option.some.injEq] at hj
        simp [hi, hj] at hsplit
      · exact ih hsplit.2 n (by simpa using hi) (by simpa using hj)

/-- Invariant proof for the forward scan of `run`: entered at a cursor `pos`
whose own byte the scan will never examine — but which, at every reachable
state of the actual scan, is either the start of the file with a non-newline
first byte or the (non-newline, by the no-adjacent-newlines hypothesis) byte
right after a counted newline — the scan agrees, up to clamping at
end-of-file, with the reference offset of the specification. -/
lemma forwardScanGo_spec (cs : List Nat) (maxL : Nat)
    (hadj : noAdjacentNewlines cs = true) :
    ∀ fuel pos linesNum, cs.length + 1 ≤ fuel + pos → linesNum ≤ maxL →
      cs[pos]? ≠ some newline →
      min (forwardScanGo cs maxL fuel linesNum pos) cs.length =
        min (pos + specLineStartOffset (cs.drop pos) (maxL - linesNum))
          cs.length := by
  intro fuel
  induction fuel with
  | zero =>
    intro pos ln hfuel _ _
    have hdrop : cs.drop pos = [] := List.drop_eq_nil_of_le (by omega)
    have hspec : specLineStartOffset [] (maxL - ln) = 0 := by
      cases (maxL - ln) <;> simp [specLineStartOffset]
    rw [hdrop, hspec]
    simp only [forwardScanGo]
    omega
  | succ fuel ih =>
    intro pos ln hfuel hle hsafe
    by_cases hlt : ln < maxL
    case neg =>
      have h0 : maxL - ln = 0 := by omega
      have hret : forwardScanGo cs maxL (fuel + 1) ln pos = pos := by
        simp [forwardScanGo, hlt]
      rw [hret, h0]
      simp [specLineStartOffset]
    case pos =>
      have hk : maxL - ln = (maxL - ln - 1) + 1 := by omega
      cases hread : cs[pos + 1]? with
      | none =>
        have hlen : cs.length ≤ pos + 1 := List.getElem?_eq_none_iff.1 hread
        have hret : forwardScanGo cs maxL (fuel + 1) ln pos = pos + 1 := by
          simp [forwardScanGo, hlt, hread]
        rw [hret]
        by_cases hpos : pos < cs.length
        · have hb : cs[pos]? = some cs[pos] := List.getElem?_eq_getElem hpos
          have hbnl : ¬ cs[pos] = newline := fun hcc => hsafe (by rw [hb, hcc])
          have hdrop : cs.drop pos = [cs[pos]] := by
            rw [drop_cons_of_read hb, List.drop_eq_nil_of_le hlen]
          have hspec1 : specLineStartOffset [cs[pos]] (maxL - ln) = 1 := by
            rw [hk]
            simp [specLineStartOffset, if_neg hbnl]
          rw [hdrop, hspec1]
        · have hdrop : cs.drop pos = [] := List.drop_eq_nil_of_le (by omega)
          have hspec : specLineStartOffset [] (maxL - ln) = 0 := by
            cases (maxL - ln) <;> simp [specLineStartOffset]
          rw [hdrop, hspec]
          omega
      | some b =>
        have hplt : pos + 1 < cs.length := (List.getElem?_eq_some.1 hread).1
        have hposlt : pos < cs.length := by omega
        have hb : cs[pos]? = some cs[pos] := List.getElem?_eq_getElem hposlt
        have hbnl : ¬ cs[pos] = newline := fun hcc => hsafe (by rw [hb, hcc])
        have hdrop : cs.drop pos = cs[pos] :: cs.drop (pos + 1) :=
          drop_cons_of_read hb
        have hdrop1 : cs.drop (pos + 1) = b :: cs.drop (pos + 2) :=
          drop_cons_of_read hread
        by_cases hnl : b = newline
        · have hrec : forwardScanGo cs maxL (fuel + 1) ln pos =
              forwardScanGo cs maxL fuel (ln + 1) (pos + 2) := by
            simp [forwardScanGo, hlt, hread, hnl]
          have hsafe2 : cs[pos + 2]? ≠ some newline :=
            noAdjacent_not_next cs hadj (pos + 1) (by rw [hread, hnl])
          have hih := ih (pos + 2) (ln + 1) (by omega) (by omega) hsafe2
          have harith : maxL - (ln + 1) = maxL - ln - 1 := by omega
          have hspec2 : specLineStartOffset (cs[pos] :: b :: cs.drop (pos + 2))
              (maxL - ln) =
              1 + (1 + specLineStartOffset (cs.drop (pos + 2)) (maxL - ln - 1)) := by
            rw [hk]
            simp only [specLineStartOffset, if_neg hbnl, if_pos hnl,
              Nat.add_sub_cancel]
          rw [hrec, hih, harith, hdrop, hdrop1, hspec2]
          omega
        · have hrec : forwardScanGo cs maxL (fuel + 1) ln pos =
              forwardScanGo cs maxL fuel ln (pos + 1) := by
            simp [forwardScanGo, hlt, hread, hnl]
          have hsafe2 : cs[pos + 1]? ≠ some newline := by
            rw [hread]
            simp [hnl]
          have hih := ih (pos + 1) ln (by omega) hle hsafe2
          have hspec2 : specLineStartOffset (cs[pos] :: cs.drop (pos + 1))
              (maxL - ln) =
              1 + specLineStartOffset (cs.drop (pos + 1)) (maxL - ln) := by
            conv_lhs => rw [hk]
            simp only [specLineStartOffset, if_neg hbnl, Nat.add_sub_cancel]
            rw [← hk]
          rw [hrec, hih, hdrop, hspec2]
          omega

/-- When the file has at most `maxL` lines, the forward scan of `run` runs
off the end of the file: entered at `pos` having counted `linesNum` newlines,
all of them inside `cs.take pos`, it returns a cursor at or past
end-of-file. -/
lemma forwardScanGo_exhaust (cs : List Nat) (maxL : Nat)
    (hfile : countLines cs ≤ maxL) :
    ∀ fuel pos linesNum, cs.length + 1 ≤ fuel + pos →
      linesNum ≤ (cs.take pos).count newline →
      cs.length ≤ forwardScanGo cs maxL fuel linesNum pos := by
  intro fuel
  induction fuel with
  | zero =>
    intro pos ln hfuel _
    simp only [forwardScanGo]
    omega
  | succ fuel ih =>
    intro pos ln hfuel hinv
    by_cases hlt : ln < maxL
    case neg =>
      have hret : forwardScanGo cs maxL (fuel + 1) ln pos = pos := by
        simp [forwardScanGo, hlt]
      rw [hret]
      by_contra hpos
      push_neg at hpos
      have h1 : (cs.take pos).count newline ≤ cs.count newline := count_take_le cs pos
      have h2 : cs.count newline ≤ countLines cs := Nat.le_add_right _ _
      have heq : countLines cs = cs.count newline := by omega
      rcases countLines_eq_count_iff.1 heq with rfl | hlast
      · simp at hpos
      · have hne : cs.drop pos ≠ [] := by
          intro hd
          have := List.drop_eq_nil_iff.mp hd
          omega
        have hl2 : (cs.drop pos).getLast? = some newline :=
          (getLast?_drop hne).trans hlast
        have hcp : 0 < (cs.drop pos).count newline := count_pos_of_terminated hl2
        have hsplitc : (cs.take pos).count newline + (cs.drop pos).count newline =
            cs.count newline := by
          rw [← List.count_append, List.take_append_drop]
        omega
    case pos =>
      cases hread : cs[pos + 1]? with
      | none =>
        have hlen : cs.length ≤ pos + 1 := List.getElem?_eq_none_iff.1 hread
        have hret : forwardScanGo cs maxL (fuel + 1) ln pos = pos + 1 := by
          simp [forwardScanGo, hlt, hread]
        rw [hret]
        omega
      | some b =>
        obtain ⟨hplt, hbe⟩ := List.getElem?_eq_some.1 hread
        have hmono : (cs.take pos).count newline ≤
            (cs.take (pos + 1)).count newline := by
          rw [List.take_add cs pos 1, List.count_append]
          omega
        by_cases hnl : b = newline
        · have hrec : forwardScanGo cs maxL (fuel + 1) ln pos =
              forwardScanGo cs maxL fuel (ln + 1) (pos + 2) := by
            simp [forwardScanGo, hlt, hread, hnl]
          rw [hrec]
          apply ih (pos + 2) (ln + 1) (by omega)
          have htk : cs.take (pos + 2) = cs.take (pos + 1) ++
              ((cs.drop (pos + 1)).take 1) := List.take_add cs (pos + 1) 1
          have hd1 : cs.drop (pos + 1) = b :: cs.drop (pos + 2) :=
            drop_cons_of_read hread
          rw [htk, hd1, List.count_append]
          have hone : (List.take 1 (b :: cs.drop (pos + 2))).count newline = 1 := by
            simp [List.take_succ_cons, hnl]
          omega
        · have hrec : forwardScanGo cs maxL (fuel + 1) ln pos =
              forwardScanGo cs maxL fuel ln (pos + 1) := by
            simp [forwardScanGo, hlt, hread, hnl]
          rw [hrec]
          exact ih (pos + 1) ln (by omega) (by omega)

/-! ## Behaviour of the parser -/

/-- A decimal digit is not the plus sign. -/
lemma isDigit_ne_plus {a : Char} (h : a.isDigit = true) : a ≠ '+' := by
  intro hq
  subst hq
  exact absurd h (by decide)

/-- A decimal digit is not the minus sign. -/
lemma isDigit_ne_minus {a : Char} (h : a.isDigit = true) : a ≠ '-' := by
  intro hq
  subst hq
  exact absurd h (by decide)

/-- `trim_start_matches('-')` leaves a string whose head is not `'-'`. -/
lemma head?_dropWhile_minus (l : List Char) :
    (l.dropWhile (fun ch => decide (ch = '-'))).head? ≠ some '-' := by
  induction l with
  | nil => simp
  | cons a t ih =>
    by_cases ha : a = '-'
    · simpa [List.dropWhile_cons, ha] using ih
    · simp [List.dropWhile_cons, ha]

/-- `trim_start_matches('-')` is the identity on an all-digit string. -/
lemma dropWhile_minus_of_digits {d : List Char} (hd : d.all Char.isDigit = true) :
    d.dropWhile (fun ch => decide (ch = '-')) = d := by
  cases d with
  | nil => rfl
  | cons a t =>
    have ha : a.isDigit = true := by
      rw [List.all_cons, Bool.and_eq_true] at hd
      exact hd.1
    simp [List.dropWhile_cons, isDigit_ne_minus ha]

/-- The leading run of `'-'` characters is literally a replicated `'-'`. -/
lemma takeWhile_minus_replicate (l : List Char) :
    l.takeWhile (fun ch => decide (ch = '-')) =
      List.replicate (l.takeWhile (fun ch => decide (ch = '-'))).length '-' := by
  apply List.eq_replicate_of_mem
  intro b hb
  simpa using List.mem_takeWhile_imp hb

/-- Dropping the leading `'-'` characters of `replicate m '-' ++ u` yields `u`
once `u` does not itself start with `'-'`. -/
lemma dropWhile_minus_replicate_append (m : Nat) (u : List Char)
    (hu : u.head? ≠ some '-') :
    (List.replicate m '-' ++ u).dropWhile (fun ch => decide (ch = '-')) = u := by
  induction m with
  | zero =>
    cases u with
    | nil => rfl
    | cons a t =>
      have ha : a ≠ '-' := by simpa using hu
      simp [List.dropWhile_cons, ha]
  | succ k ih => simp [List.replicate_succ, List.dropWhile_cons, ih]

/-- `str::parse::<i64>` on an all-digit string: it succeeds with the decimal
value exactly when that value fits in the positive `i64` range. -/
lemma parseI64_digits {d : List Char} (hne : d ≠ []) (hd : d.all Char.isDigit = true) :
    parseI64 d =
      if digitsToNat d ≤ 2 ^ 63 - 1 then some ((digitsToNat d : Int)) else none := by
  obtain ⟨a, t, rfl⟩ := List.exists_cons_of_ne_nil hne
  have ha : a.isDigit = true := by
    have hd' := hd
    rw [List.all_cons, Bool.and_eq_true] at hd'
    exact hd'.1
  have hsign : ¬((a :: t).head? = some '+' ∨ (a :: t).head? = some '-') := by
    simp only [List.head?_cons, Option.some.injEq]
    push_neg
    exact ⟨isDigit_ne_plus ha, isDigit_ne_minus ha⟩
  have hminus : ¬ (a :: t).head? = some '-' := by
    simp only [List.head?_cons, Option.some.injEq]
    exact isDigit_ne_minus ha
  simp only [parseI64, if_neg hsign, if_neg hminus,
    if_neg (List.cons_ne_nil a t), if_pos hd]

/-- `str::parse::<i64>` on `'+'` followed by an all-digit string. -/
lemma parseI64_plus {d : List Char} (hne : d ≠ []) (hd : d.all Char.isDigit = true) :
    parseI64 ('+' :: d) =
      if digitsToNat d ≤ 2 ^ 63 - 1 then some ((digitsToNat d : Int)) else none := by
  have hsign : ('+' :: d).head? = some '+' ∨ ('+' :: d).head? = some '-' :=
    Or.inl (by simp)
  have hminus : ¬ ('+' :: d).head? = some '-' := by simp
  have hdrop : ('+' :: d).drop 1 = d := by simp
  simp only [parseI64, if_pos hsign, hdrop, if_neg hne, if_pos hd, if_neg hminus]

/-- The shape of a string accepted by `str::parse::<i64>` when its head is
not `'-'`: after the optional leading `'+'`, a non-empty all-digit string in
the positive `i64` range. -/
lemma parseI64_isSome_shape {u : List Char} (hu : u.head? ≠ some '-')
    (hs : (parseI64 u).isSome = true) :
    (if u.head? = some '+' then u.drop 1 else u) ≠ [] ∧
      (if u.head? = some '+' then u.drop 1 else u).all Char.isDigit = true ∧
      digitsToNat (if u.head? = some '+' then u.drop 1 else u) ≤ 2 ^ 63 - 1 := by
  have hcond : (if u.head? = some '+' ∨ u.head? = some '-' then u.drop 1 else u) =
      (if u.head? = some '+' then u.drop 1 else u) := by
    by_cases hq : u.head? = some '+'
    · simp [hq]
    · simp [hq, hu]
  simp only [parseI64, hcond, if_neg hu] at hs
  by_cases h1 : (if u.head? = some '+' then u.drop 1 else u) = []
  · rw [if_pos h1] at hs
    simp at hs
  · rw [if_neg h1] at hs
    by_cases h2 : (if u.head? = some '+' then u.drop 1 else u).all Char.isDigit
    · rw [if_pos h2] at hs
      by_cases h3 : digitsToNat (if u.head? = some '+' then u.drop 1 else u) ≤ 2 ^ 63 - 1
      · exact ⟨h1, h2, h3⟩
      · rw [if_neg h3] at hs
        simp at hs
    · rw [if_neg h2] at hs
      simp at hs

/-- The head of the optional-plus-then-digits block is never `'-'`. -/
lemma head?_plus_digits_ne_minus {q : Bool} {d : List Char} (hne : d ≠ [])
    (hd : d.all Char.isDigit = true) :
    ((if q then ['+'] else []) ++ d).head? ≠ some '-' := by
  cases q
  · obtain ⟨a, t, rfl⟩ := List.exists_cons_of_ne_nil hne
    have ha : a.isDigit = true := by
      rw [List.all_cons, Bool.and_eq_true] at hd
      exact hd.1
    simpa using isDigit_ne_minus ha
  · simp

/-- `parse_position` on a bare all-digit string: `FromEnd` with the negated
magnitude. -/
lemma parse_position_digits {d : List Char} (hne : d ≠ [])
    (hd : d.all Char.isDigit = true) :
    parse_position d =
      if digitsToNat d ≤ 2 ^ 63 - 1 then some (-(digitsToNat d : Int), false)
      else none := by
  obtain ⟨a, t, rfl⟩ := List.exists_cons_of_ne_nil hne
  have ha : a.isDigit = true := by
    have hd' := hd
    rw [List.all_cons, Bool.and_eq_true] at hd'
    exact hd'.1
  have hplus : ¬ (a :: t).head? = some '+' := by
    simp only [List.head?_cons, Option.some.injEq]
    exact isDigit_ne_plus ha
  rw [parse_position, if_neg hplus, dropWhile_minus_of_digits hd,
    parseI64_digits hne hd]
  by_cases hb : digitsToNat (a :: t) ≤ 2 ^ 63 - 1
  · rw [if_pos hb, if_pos hb]
    rfl
  · rw [if_neg hb, if_neg hb]
    rfl

/-- `parse_position` on `'+'` followed by an all-digit string: `FromStart`
with the raw magnitude. -/
lemma parse_position_plus {d : List Char} (hne : d ≠ [])
    (hd : d.all Char.isDigit = true) :
    parse_position ('+' :: d) =
      if digitsToNat d ≤ 2 ^ 63 - 1 then some ((digitsToNat d : Int), true)
      else none := by
  have hplus : ('+' :: d).head? = some '+' := by simp
  have hdrop : ('+' :: d).drop 1 = d := by simp
  rw [parse_position, if_pos hplus, hdrop, dropWhile_minus_of_digits hd,
    parseI64_digits hne hd]
  by_cases hb : digitsToNat d ≤ 2 ^ 63 - 1
  · rw [if_pos hb, if_pos hb]
    rfl
  · rw [if_neg hb, if_neg hb]
    rfl

/-- `parse_position` on `'-'` followed by an all-digit string: the same
result as the bare digit string. -/
lemma parse_position_minus {d : List Char} (hne : d ≠ [])
    (hd : d.all Char.isDigit = true) :
    parse_position ('-' :: d) =
      if digitsToNat d ≤ 2 ^ 63 - 1 then some (-(digitsToNat d : Int), false)
      else none := by
  have hplus : ¬ ('-' :: d).head? = some '+' := by simp
  have hdrop : ('-' :: d).dropWhile (fun ch => decide (ch = '-')) =
      d.dropWhile (fun ch => decide (ch = '-')) := by
    simp [List.dropWhile_cons]
  rw [parse_position, if_neg hplus, hdrop, dropWhile_minus_of_digits hd,
    parseI64_digits hne hd]
  by_cases hb : digitsToNat d ≤ 2 ^ 63 - 1
  · rw [if_pos hb, if_pos hb]
    rfl
  · rw [if_neg hb, if_neg hb]
    rfl

/-! ## Behaviour of the emitter loop -/

/-- When every file that opens is free of end-seek and drain failures, the
whole run succeeds: each open failure contributes `none` (its error is
printed) and every other file is emitted from its computed offset. -/
lemma processFiles_clean (b : Bool) (pos : Int) (fs : Bool) :
    ∀ files : List FileInput,
      (∀ f ∈ files, f.openOk = true → f.seekEndErr = false ∧ f.drainErr = false) →
      processFiles b pos fs files = Except.ok (files.map fun f =>
        if f.openOk then
          some (f.content.drop (fileOffset b fs pos f.content))
        else none) := by
  intro files
  induction files with
  | nil => intro _; rfl
  | cons f rest ih =>
    intro h
    have hrest := ih (fun g hg => h g (List.mem_cons_of_mem f hg))
    cases ho : f.openOk with
    | false =>
      simp [processFiles, ho, hrest, Except.map]
    | true =>
      obtain ⟨hs, hdr⟩ := h f (List.mem_cons_self f rest) ho
      simp [processFiles, ho, hs, hdr, hrest, Except.map]

/-- Every emission of a successful run is a contiguous suffix of its file's
bytes. -/
lemma processFiles_suffix (b : Bool) (pos : Int) (fs : Bool) :
    ∀ (files : List FileInput) (res : List (Option (List Nat))),
      processFiles b pos fs files = Except.ok res →
      List.Forall₂
        (fun (f : FileInput) (o : Option (List Nat)) =>
          ∀ out, o = some out → List.IsSuffix out f.content) files res := by
  intro files
  induction files with
  | nil =>
    intro res h
    simp only [processFiles] at h
    cases h
    exact List.Forall₂.nil
  | cons f rest ih =>
    intro res h
    simp only [processFiles] at h
    by_cases ho : f.openOk = false
    · rw [if_pos ho] at h
      cases hrest : processFiles b pos fs rest with
      | error e => rw [hrest] at h; cases h
      | ok r =>
        rw [hrest] at h
        cases h
        refine List.Forall₂.cons ?_ (ih r hrest)
        intro out hout
        cases hout
    · rw [if_neg ho] at h
      by_cases h1 : ((!fs) && f.seekEndErr) = true
      · rw [if_pos h1] at h
        cases h
      · rw [if_neg h1] at h
        by_cases h2 : f.drainErr = true
        · rw [if_pos h2] at h
          cases h
        · rw [if_neg h2] at h
          cases hrest : processFiles b pos fs rest with
          | error e => rw [hrest] at h; cases h
          | ok r =>
            rw [hrest] at h
            cases h
            refine List.Forall₂.cons ?_ (ih r hrest)
            intro out hout
            rw [Option.some.injEq] at hout
            subst hout
            exact List.drop_suffix _ _

/-! ## Claims -/

/-- Claim C1 (corrected): for every file that is empty or ends in a newline,
the number of lines emitted by a `Lines/FromEnd(count)` spec — counting
newline-terminated lines and a final unterminated line, with a trailing
newline at end-of-file not counted as starting an extra empty line — equals
`min count total_lines`, and when such a file has at most `count` lines the
start offset is 0 (the whole file is emitted).  The restriction to empty or
newline-terminated files is forced by the counterexample: on a non-empty
file whose last byte is not a newline the scan demands `count + 1` newlines
before stopping and emits one line too many. -/
theorem lines_from_end_emits_min (cs : List Nat) (count : Nat)
    (h : cs = [] ∨ cs.getLast? = some newline) :
    countLines (cs.drop (backwardScan cs count 0 cs.length)) =
      min count (countLines cs) ∧
    (countLines cs ≤ count → backwardScan cs count 0 cs.length = 0) := by
  constructor
  · rw [countLines_eq_count (terminated_drop h _), countLines_eq_count h]
    exact backwardScan_count cs count cs.length 0 le_rfl (by simp) (Nat.zero_le _)
  · intro hcnt
    refine backwardScan_all cs count cs.length 0 le_rfl (by simp) ?_
    rw [← countLines_eq_count h]
    exact hcnt

/-- Counterexample to claim C1 as stated: on the two-line file `"a\nb"`
(no trailing newline) with `count = 1`, the emission holds 2 lines, not
`min 1 2 = 1` — the backward scan fails to stop and emits the whole file. -/
theorem lines_from_end_emits_min_cex :
    countLines (([97, 10, 98] : List Nat).drop (backwardScan [97, 10, 98] 1 0 3)) ≠
      min 1 (countLines [97, 10, 98]) := by
  decide

/-- Witness for C1 at the newline-terminated file `"a\n"` with `count = 5`. -/
theorem lines_from_end_emits_min_witness :
    (([97, 10] : List Nat) = [] ∨
      ([97, 10] : List Nat).getLast? = some newline) ∧
    (countLines (([97, 10] : List Nat).drop (backwardScan [97, 10] 5 0 2)) =
        min 5 (countLines [97, 10]) ∧
      (countLines [97, 10] ≤ 5 → backwardScan [97, 10] 5 0 2 = 0)) :=
  ⟨by decide, lines_from_end_emits_min [97, 10] 5 (by decide)⟩

/-- Claim C2 (corrected): for every file whose first byte is not a newline
and which has no two adjacent newlines (no empty lines), the forward scan's
start position, clamped to the file size, is the position immediately after
the `index`-th newline — 0 when `index = 0` and the file size when the file
has fewer than `index` newlines.  The restriction is forced by the
counterexample: the scan never examines byte 0 and skips the byte after each
counted newline, so a newline at offset 0 or right after another newline is
missed. -/
theorem lines_from_start_offset (cs : List Nat) (index : Nat)
    (h0 : cs[0]? ≠ some newline) (hadj : noAdjacentNewlines cs = true) :
    min (forwardScan cs index) cs.length = specLineStartOffset cs index := by
  have hmain := forwardScanGo_spec cs index hadj (cs.length + 1) 0 0 (by omega)
    (Nat.zero_le _) h0
  rw [forwardScan, hmain, List.drop_zero, Nat.sub_zero, Nat.zero_add,
    Nat.min_eq_left (specLineStartOffset_le cs index)]

/-- Counterexample to claim C2 as stated: on the file `"\nX"` (a newline as
its first byte) with `index = 1`, the specification's offset is 1 (emit
`"X"`), but the scan returns 2 and emits nothing. -/
theorem lines_from_start_offset_cex :
    forwardScan [10, 88] 1 = 2 ∧ specLineStartOffset [10, 88] 1 = 1 ∧
    ([10, 88] : List Nat).drop (forwardScan [10, 88] 1) ≠
      ([10, 88] : List Nat).drop (specLineStartOffset [10, 88] 1) := by
  decide

/-- Witness for C2 at the file `"a\nb\n"` with `index = 1`. -/
theorem lines_from_start_offset_witness :
    (([97, 10, 98, 10] : List Nat)[0]? ≠ some newline ∧
      noAdjacentNewlines [97, 10, 98, 10] = true) ∧
    min (forwardScan [97, 10, 98, 10] 1) ([97, 10, 98, 10] : List Nat).length =
      specLineStartOffset [97, 10, 98, 10] 1 :=
  ⟨⟨by decide, by decide⟩,
    lines_from_start_offset [97, 10, 98, 10] 1 (by decide) (by decide)⟩

/-- Claim C4 (corrected): a byte-mode `FromEnd` spec with magnitude 0 emits
nothing; a line-mode `FromEnd` spec with magnitude 0 emits nothing for every
file that is empty or ends in a newline; and a `FromStart` spec with raw
magnitude 0 emits the whole file (offset 0) in both byte and line mode.  The
restriction of the line-mode `FromEnd(0)` case is forced by the
counterexample: on a non-empty file not ending in a newline the backward
scan keeps searching for a first newline and emits the trailing
unterminated line (or the whole file). -/
theorem zero_magnitude (cs : List Nat) :
    cs.drop (fileOffset true false 0 cs) = [] ∧
    ((cs = [] ∨ cs.getLast? = some newline) →
      cs.drop (backwardScan cs 0 0 cs.length) = []) ∧
    fileOffset true true 0 cs = 0 ∧
    forwardScan cs 0 = 0 := by
  refine ⟨?_, ?_, ?_, ?_⟩
  · have hoff : fileOffset true false 0 cs =
        if (0 : Int) ≤ (cs.length : Int) + 0 then ((cs.length : Int) + 0).toNat
        else 0 := rfl
    have hlen : fileOffset true false 0 cs = cs.length := by
      rw [hoff, if_pos (by omega)]
      omega
    rw [hlen, List.drop_length]
  · intro h
    have hc := backwardScan_count cs 0 cs.length 0 le_rfl (by simp) le_rfl
    rcases terminated_drop h (backwardScan cs 0 0 cs.length) with hnil | hlast
    · exact hnil
    · exfalso
      have hpos := count_pos_of_terminated hlast
      omega
  · have hoff : fileOffset true true 0 cs =
        if (0 : Int) ≤ (0 : Int) + 0 then ((0 : Int) + 0).toNat else 0 := rfl
    rw [hoff, if_pos (by omega)]
    omega
  · simp [forwardScan, forwardScanGo]

/-- Counterexample to claim C4 as stated: on the file `"a"` (one byte, no
newline), the line-mode `FromEnd(0)` scan emits the whole file rather than
nothing. -/
theorem zero_magnitude_cex :
    ([97] : List Nat).drop (backwardScan [97] 0 0 1) ≠ [] := by
  decide

/-- Witness for C4 at the newline-terminated file `"a\n"`. -/
theorem zero_magnitude_witness :
    (([97, 10] : List Nat) = [] ∨
      ([97, 10] : List Nat).getLast? = some newline) ∧
    ([97, 10] : List Nat).drop (backwardScan [97, 10] 0 0 2) = [] :=
  ⟨by decide, (zero_magnitude [97, 10]).2.1 (by decide)⟩

/-- Claim C6 (confirmed): in byte mode, `FromStart(index)` emits exactly the
bytes from offset `min index file_size` to end-of-file, and `FromEnd(count)`
starts at offset `file_size - min count file_size`. -/
theorem byte_mode_offsets (cs : List Nat) (index count : Nat) :
    cs.drop (fileOffset true true (index : Int) cs) =
      cs.drop (min index cs.length) ∧
    fileOffset true false (-(count : Int)) cs =
      cs.length - min count cs.length := by
  constructor
  · have hoff : fileOffset true true (index : Int) cs =
        if (0 : Int) ≤ (0 : Int) + (index : Int)
        then ((0 : Int) + (index : Int)).toNat else 0 := rfl
    have hidx : fileOffset true true (index : Int) cs = index := by
      rw [hoff, if_pos (by omega)]
      omega
    rw [hidx]
    rcases Nat.le_total index cs.length with h | h
    · rw [Nat.min_eq_left h]
    · rw [Nat.min_eq_right h, List.drop_eq_nil_of_le h, List.drop_length]
  · have hoff : fileOffset true false (-(count : Int)) cs =
        if (0 : Int) ≤ (cs.length : Int) + -(count : Int)
        then ((cs.length : Int) + -(count : Int)).toNat else 0 := rfl
    rw [hoff]
    by_cases h : (0 : Int) ≤ (cs.length : Int) + -(count : Int)
    · rw [if_pos h]
      omega
    · rw [if_neg h]
      omega

/-- Claim C8 (confirmed): for every file and every `Lines/FromStart(index)`
spec with `index` at least the file's total number of lines, the emission is
empty: the scan, which can only undercount newlines, runs off the end of the
file before counting `index` of them (or stops exactly at the end). -/
theorem lines_from_start_past_end (cs : List Nat) (index : Nat)
    (h : countLines cs ≤ index) :
    cs.drop (forwardScan cs index) = [] :=
  List.drop_eq_nil_of_le
    (forwardScanGo_exhaust cs index h (cs.length + 1) 0 0 (by omega)
      (Nat.zero_le _))

/-- Witness for C8 at the file `"a\nb"` with `index = 5`. -/
theorem lines_from_start_past_end_witness :
    countLines [97, 10, 98] ≤ 5 ∧
    ([97, 10, 98] : List Nat).drop (forwardScan [97, 10, 98] 5) = [] :=
  ⟨by decide, lines_from_start_past_end [97, 10, 98] 5 (by decide)⟩

/-- Claim C3 (corrected): a parse failure of the count specification is
fatal and aborts before any file is opened; a failure to *open* a file is
printed, leaves the exit status successful and processing continues with the
next file in argument order.  However — as the counterexample shows and
contrary to the claim — an I/O failure on the end-seek of an opened file or
while draining it propagates through `?` and aborts the whole run with an
error: only open failures are caught at the per-file boundary. -/
theorem error_policy (bytes lines : Option (List Char)) (files : List FileInput) :
    (parse_position (selectPosition bytes lines).2 = none →
      run bytes lines files =
        Except.error (CliError.invalidPosition (selectPosition bytes lines).2
          (selectPosition bytes lines).1)) ∧
    (∀ pv fs, parse_position (selectPosition bytes lines).2 = some (pv, fs) →
      (∀ f ∈ files, f.openOk = true → f.seekEndErr = false ∧ f.drainErr = false) →
      run bytes lines files = Except.ok (files.map fun f =>
        if f.openOk then
          some (f.content.drop (fileOffset (selectPosition bytes lines).1 fs
            (adjustPosition pv fs) f.content))
        else none)) := by
  constructor
  · intro hp
    simp only [run, hp]
  · intro pv fs hp hclean
    simp only [run, hp]
    exact processFiles_clean _ _ _ files hclean

/-- Counterexample to claim C3 as stated: a file that opens but whose drain
(`read_to_end`) fails makes the whole run return an I/O error — the error is
not confined to that file and the exit code is not 0. -/
theorem error_policy_cex :
    run none (some ['1', '0']) [⟨true, [], false, true⟩] =
      Except.error CliError.io := by
  rfl

/-- Witness for C3: with `-n 3`, a clean file followed by a file that fails
to open yields the first file's emission, a `none` marker for the failed
open, and a successful run. -/
theorem error_policy_witness :
    run none (some ['3']) [⟨true, [97, 10], false, false⟩, ⟨false, [5], false, false⟩] =
      Except.ok [some [97, 10], none] := by
  have h := (error_policy none (some ['3'])
    [⟨true, [97, 10], false, false⟩, ⟨false, [5], false, false⟩]).2 (-3) false
    (by decide) (by decide)
  rw [h]
  rfl

/-- Claim C7 (confirmed): a count string `+K` (digits `K`) normalizes to
`FromStart` with index `max (K - 1) 0` (natural subtraction); a bare digit
string `N` and `-N` are equivalent and both normalize to `FromEnd(N)`
(encoded as the negated position with `from_start = false`); and when
neither `--bytes` nor `--lines` is supplied, clap's `"10"` default for
`--lines` makes the spec `Lines`/`FromEnd(10)`. -/
theorem count_normalization (d : List Char) (hne : d ≠ [])
    (hd : d.all Char.isDigit = true) (hb : digitsToNat d ≤ 2 ^ 63 - 1) :
    normalizePosition ('+' :: d) = some (((digitsToNat d - 1 : Nat) : Int), true) ∧
    normalizePosition d = some (-(digitsToNat d : Int), false) ∧
    normalizePosition ('-' :: d) = some (-(digitsToNat d : Int), false) ∧
    selectPosition none (some clapLinesDefault) = (false, clapLinesDefault) ∧
    normalizePosition clapLinesDefault = some (-10, false) := by
  have hadj1 : ∀ K : Nat, adjustPosition (K : Int) true = ((K - 1 : Nat) : Int) := by
    intro K
    rw [adjustPosition]
    by_cases hK : 0 < K
    · rw [if_pos ⟨by exact_mod_cast hK, rfl⟩]
      omega
    · rw [if_neg (fun hcon => hK (by exact_mod_cast hcon.1))]
      omega
  have hadj2 : ∀ v : Int, adjustPosition v false = v := by
    intro v
    rw [adjustPosition, if_neg]
    rintro ⟨-, hff⟩
    cases hff
  refine ⟨?_, ?_, ?_, rfl, by decide⟩
  · simp only [normalizePosition, parse_position_plus hne hd, if_pos hb,
      Option.map_some']
    rw [hadj1]
  · simp only [normalizePosition, parse_position_digits hne hd, if_pos hb,
      Option.map_some']
    rw [hadj2]
  · simp only [normalizePosition, parse_position_minus hne hd, if_pos hb,
      Option.map_some']
    rw [hadj2]

/-- Witness for C7 at the digit string `"3"`. -/
theorem count_normalization_witness :
    normalizePosition ['+', '3'] =
      some (((digitsToNat ['3'] - 1 : Nat) : Int), true) ∧
    normalizePosition ['3'] = some (-(digitsToNat ['3'] : Int), false) ∧
    normalizePosition ['-', '3'] = some (-(digitsToNat ['3'] : Int), false) ∧
    selectPosition none (some clapLinesDefault) = (false, clapLinesDefault) ∧
    normalizePosition clapLinesDefault = some (-10, false) :=
  count_normalization ['3'] (by decide) (by decide) (by decide)

/-- Claim C9 (confirmed): every emission of a successful run is the rendering
of a single contiguous suffix of its file's bytes — `run` chooses one start
offset per file and streams from it to end-of-file, so nothing is reordered,
duplicated or omitted from the interior. -/
theorem emissions_are_suffixes (bytes lines : Option (List Char))
    (files : List FileInput) (res : List (Option (List Nat)))
    (h : run bytes lines files = Except.ok res) :
    List.Forall₂
      (fun (f : FileInput) (o : Option (List Nat)) =>
        ∀ out, o = some out → List.IsSuffix out f.content) files res := by
  simp only [run] at h
  cases hp : parse_position (selectPosition bytes lines).2 with
  | none =>
    rw [hp] at h
    cases h
  | some pf =>
    obtain ⟨pv, fs⟩ := pf
    rw [hp] at h
    exact processFiles_suffix _ _ _ files res h

/-- Witness for C9: a one-file run with the default `-n 10`. -/
theorem emissions_are_suffixes_witness :
    List.Forall₂
      (fun (f : FileInput) (o : Option (List Nat)) =>
        ∀ out, o = some out → List.IsSuffix out f.content)
      [⟨true, [97, 10, 98], false, false⟩] [some [97, 10, 98]] :=
  emissions_are_suffixes none (some ['1', '0'])
    [⟨true, [97, 10, 98], false, false⟩] [some [97, 10, 98]] (by rfl)

/-- Claim C10 (confirmed): the parsed magnitude is bounded by the signed
64-bit range — for every count string that satisfies the documented grammar
(optional single sign, then digits) but whose digit portion exceeds
`2^63 - 1`, parsing fails, and `run` therefore reports `InvalidCount`. -/
theorem i64_overflow_rejected (s : List Char) (hg : specCountGrammar s = true)
    (hbig : 2 ^ 63 - 1 < digitsToNat (digitPortion s)) :
    parse_position s = none := by
  cases s with
  | nil => simp [specCountGrammar] at hg
  | cons a t =>
    by_cases hsign : a = '+' ∨ a = '-'
    · have hgt : ((!t.isEmpty) && t.all Char.isDigit) = true := by
        simpa [specCountGrammar, if_pos hsign] using hg
      rw [Bool.and_eq_true, Bool.not_eq_true'] at hgt
      have hne : t ≠ [] := by
        intro hnil
        rw [hnil] at hgt
        simp at hgt
      have hport : digitPortion (a :: t) = t := by
        simp [digitPortion, if_pos hsign]
      rw [hport] at hbig
      rcases hsign with rfl | rfl
      · rw [parse_position_plus hne hgt.2, if_neg (by omega)]
      · rw [parse_position_minus hne hgt.2, if_neg (by omega)]
    · have hgt : (a :: t).all Char.isDigit = true := by
        simpa [specCountGrammar, if_neg hsign] using hg
      have hport : digitPortion (a :: t) = a :: t := by
        simp [digitPortion, if_neg hsign]
      rw [hport] at hbig
      rw [parse_position_digits (List.cons_ne_nil a t) hgt, if_neg (by omega)]

/-- Witness for C10 at `"9223372036854775808"` (`2^63`), which obeys the
grammar but fails to parse. -/
theorem i64_overflow_rejected_witness :
    specCountGrammar
        ['9', '2', '2', '3', '3', '7', '2', '0', '3', '6', '8', '5', '4', '7',
          '7', '5', '8', '0', '8'] = true ∧
    parse_position
        ['9', '2', '2', '3', '3', '7', '2', '0', '3', '6', '8', '5', '4', '7',
          '7', '5', '8', '0', '8'] = none :=
  ⟨by decide, i64_overflow_rejected _ (by decide) (by decide)⟩

/-- Claim C5 (corrected): parsing succeeds exactly for the strings of the
form: an optional leading `'+'`, then any run (possibly empty) of `'-'`
characters, then another optional `'+'`, then a non-empty decimal digit
string whose value is at most `2^63 - 1`.  This is strictly wider than the
claimed single-sign grammar — `strip_prefix("+")` followed by
`trim_start_matches('-')` and Rust's own sign handling in
`str::parse::<i64>` accept extra signs (see the counterexample) — and also
narrower, since values above `2^63 - 1` are rejected by the `i64` parse even
though the claimed grammar admits them. -/
theorem parse_position_accepted_shapes (s : List Char) :
    (parse_position s).isSome = true ↔
      ∃ (p q : Bool) (m : Nat) (d : List Char),
        s = (if p then ['+'] else []) ++ (List.replicate m '-' ++
          ((if q then ['+'] else []) ++ d)) ∧
        d ≠ [] ∧ d.all Char.isDigit = true ∧ digitsToNat d ≤ 2 ^ 63 - 1 := by
  constructor
  · intro hs
    by_cases hp : s.head? = some '+'
    · obtain ⟨s0, rfl⟩ : ∃ s0, s = '+' :: s0 := by
        cases s with
        | nil => simp at hp
        | cons a t =>
          simp only [List.head?_cons, Option.some.injEq] at hp
          exact ⟨t, by rw [hp]⟩
      have hpp : parse_position ('+' :: s0) =
          (parseI64 (s0.dropWhile (fun ch => decide (ch = '-')))).map
            (fun n => (n, true)) := by
        rw [parse_position, if_pos (by simp)]
        simp
      rw [hpp, Option.isSome_map'] at hs
      have hvh := head?_dropWhile_minus s0
      have hshape := parseI64_isSome_shape hvh hs
      have hsplit : s0 = List.replicate
            ((s0.takeWhile (fun ch => decide (ch = '-'))).length) '-' ++
          s0.dropWhile (fun ch => decide (ch = '-')) := by
        conv_lhs => rw [← List.takeWhile_append_dropWhile
          (fun ch => decide (ch = '-')) s0]
        rw [← takeWhile_minus_replicate]
      by_cases hq : (s0.dropWhile (fun ch => decide (ch = '-'))).head? = some '+'
      · obtain ⟨d0, hv⟩ : ∃ d0,
            s0.dropWhile (fun ch => decide (ch = '-')) = '+' :: d0 := by
          cases hvv : s0.dropWhile (fun ch => decide (ch = '-')) with
          | nil => rw [hvv] at hq; simp at hq
          | cons a t =>
            rw [hvv] at hq
            simp only [List.head?_cons, Option.some.injEq] at hq
            exact ⟨t, by rw [hq]⟩
        rw [hv] at hshape hsplit
        have hcond : ('+' :: d0).head? = some '+' := rfl
        rw [if_pos hcond] at hshape
        simp only [List.drop_succ_cons, List.drop_zero] at hshape
        refine ⟨true, true,
          (s0.takeWhile (fun ch => decide (ch = '-'))).length, d0, ?_, hshape⟩
        show '+' :: s0 = '+' :: (List.replicate
          ((s0.takeWhile (fun ch => decide (ch = '-'))).length) '-' ++
            ('+' :: d0))
        conv_lhs => rw [hsplit]
      · rw [if_neg hq] at hshape
        refine ⟨true, false,
          (s0.takeWhile (fun ch => decide (ch = '-'))).length,
          s0.dropWhile (fun ch => decide (ch = '-')), ?_, hshape⟩
        show '+' :: s0 = '+' :: (List.replicate
          ((s0.takeWhile (fun ch => decide (ch = '-'))).length) '-' ++
            s0.dropWhile (fun ch => decide (ch = '-')))
        conv_lhs => rw [hsplit]
    · have hpp : parse_position s =
          (parseI64 (s.dropWhile (fun ch => decide (ch = '-')))).map
            (fun n => (-n, false)) := by
        rw [parse_position, if_neg hp]
      rw [hpp, Option.isSome_map'] at hs
      have hvh := head?_dropWhile_minus s
      have hshape := parseI64_isSome_shape hvh hs
      have hsplit : s = List.replicate
            ((s.takeWhile (fun ch => decide (ch = '-'))).length) '-' ++
          s.dropWhile (fun ch => decide (ch = '-')) := by
        conv_lhs => rw [← List.takeWhile_append_dropWhile
          (fun ch => decide (ch = '-')) s]
        rw [← takeWhile_minus_replicate]
      by_cases hq : (s.dropWhile (fun ch => decide (ch = '-'))).head? = some '+'
      · obtain ⟨d0, hv⟩ : ∃ d0,
            s.dropWhile (fun ch => decide (ch = '-')) = '+' :: d0 := by
          cases hvv : s.dropWhile (fun ch => decide (ch = '-')) with
          | nil => rw [hvv] at hq; simp at hq
          | cons a t =>
            rw [hvv] at hq
            simp only [List.head?_cons, Option.some.injEq] at hq
            exact ⟨t, by rw [hq]⟩
        rw [hv] at hshape hsplit
        have hcond : ('+' :: d0).head? = some '+' := rfl
        rw [if_pos hcond] at hshape
        simp only [List.drop_succ_cons, List.drop_zero] at hshape
        refine ⟨false, true,
          (s.takeWhile (fun ch => decide (ch = '-'))).length, d0, ?_, hshape⟩
        show s = List.replicate
          ((s.takeWhile (fun ch => decide (ch = '-'))).length) '-' ++
            ('+' :: d0)
        conv_lhs => rw [hsplit]
      · rw [if_neg hq] at hshape
        refine ⟨false, false,
          (s.takeWhile (fun ch => decide (ch = '-'))).length,
          s.dropWhile (fun ch => decide (ch = '-')), ?_, hshape⟩
        show s = List.replicate
          ((s.takeWhile (fun ch => decide (ch = '-'))).length) '-' ++
            s.dropWhile (fun ch => decide (ch = '-'))
        conv_lhs => rw [hsplit]
  · rintro ⟨p, q, m, d, rfl, hne, hd, hb⟩
    have hu : ((if q then ['+'] else []) ++ d).head? ≠ some '-' :=
      head?_plus_digits_ne_minus hne hd
    have hI : (parseI64 ((if q then ['+'] else []) ++ d)).isSome = true := by
      cases q
      · show (parseI64 d).isSome = true
        rw [parseI64_digits hne hd, if_pos hb]
        rfl
      · show (parseI64 ('+' :: d)).isSome = true
        rw [parseI64_plus hne hd, if_pos hb]
        rfl
    cases p
    · cases m with
      | zero =>
        cases q
        · show (parse_position d).isSome = true
          rw [parse_position_digits hne hd, if_pos hb]
          rfl
        · show (parse_position ('+' :: d)).isSome = true
          rw [parse_position_plus hne hd, if_pos hb]
          rfl
      | succ k =>
        show (parse_position ('-' :: (List.replicate k '-' ++
          ((if q then ['+'] else []) ++ d)))).isSome = true
        rw [parse_position, if_neg (by simp)]
        have hdw : ('-' :: (List.replicate k '-' ++
            ((if q then ['+'] else []) ++ d))).dropWhile
              (fun ch => decide (ch = '-')) =
            (if q then ['+'] else []) ++ d := by
          have h2 := dropWhile_minus_replicate_append (k + 1)
            ((if q then ['+'] else []) ++ d) hu
          rw [List.replicate_succ, List.cons_append] at h2
          exact h2
        rw [hdw, Option.isSome_map']
        exact hI
    · show (parse_position ('+' :: (List.replicate m '-' ++
        ((if q then ['+'] else []) ++ d)))).isSome = true
      rw [parse_position, if_pos (by simp)]
      have hdw : (('+' :: (List.replicate m '-' ++
          ((if q then ['+'] else []) ++ d))).drop 1).dropWhile
            (fun ch => decide (ch = '-')) =
          (if q then ['+'] else []) ++ d := by
        simp only [List.drop_succ_cons, List.drop_zero]
        exact dropWhile_minus_replicate_append m _ hu
      rw [hdw, Option.isSome_map']
      exact hI

/-- Counterexample to claim C5 as stated: `"--5"` parses successfully (to
`FromEnd(5)`) although it does not match the claimed grammar of one optional
sign followed by digits. -/
theorem parse_position_accepted_shapes_cex :
    (parse_position ['-', '-', '5']).isSome = true ∧
    specCountGrammar ['-', '-', '5'] = false := by
  decide

end Tailr
